import Mathlib

/-!
Shallow embedding of `SyncAsyncStream` (src/packages/ffmpeg/src/sync.ts):
a single-producer/single-consumer circular byte buffer with a three-word
control block (`readPosition`, `writePosition`, `state`), blocking and
suspending read/write loops, and a two-phase close → end-of-stream shutdown.

Modeling conventions:
* The shared region is an `SStream` record: the three control words as `Nat`
  fields plus the data region as a `List Nat` (its length is the capacity).
* Bytes and positions are `Nat`; counts returned to callers are `Nat` inside
  the loops and `Int` at the API surface (end-of-stream is `-1`).
* The claims speak about an otherwise idle channel: no counterpart ever
  advances a cursor concurrently.  An `Atomics.wait` / `Atomics.waitAsync`
  therefore never leads to progress, so a loop iteration that would wait is
  modeled as `none` (divergence), and the loops take a fuel argument bounding
  the number of iterations.
-/

namespace FFStream

/-- The `SyncAsyncStream` shared region: the three 32-bit control words
(`readPosition`, `writePosition`, `state`) and the circular data region.
`data.length` is the capacity. -/
structure SStream where
  readPos : Nat
  writePos : Nat
  state : Nat
  data : List Nat
deriving Repr, DecidableEq

/-- `TypedArray.set(src, pos)`: overwrite the slice `[pos, pos + src.length)`
of `t` with `src` (callers always stay within bounds). -/
def byteSet (t : List Nat) (pos : Nat) (src : List Nat) : List Nat :=
  t.take pos ++ src ++ t.drop (pos + src.length)

/-- `get #closed`: `state != 0`. -/
def closed (s : SStream) : Bool :=
  s.state != 0

/-- `get #endOfStream`: `state > 1`. -/
def endOfStream (s : SStream) : Bool :=
  decide (s.state > 1)

/-- `#setClosed`: `Atomics.or(index, 2, 1)`. -/
def setClosed (s : SStream) : SStream :=
  { s with state := s.state ||| 1 }

/-- `#setEndOfStream`: `Atomics.or(index, 2, 2)`. -/
def setEndOfStream (s : SStream) : SStream :=
  { s with state := s.state ||| 2 }

/-- `close()`: set the closed bit (the notify has no state effect). -/
def close (s : SStream) : SStream :=
  setClosed s

/-- `reset()`: store 0 into all three control words. -/
def reset (s : SStream) : SStream :=
  { s with readPos := 0, writePos := 0, state := 0 }

/-- `#writeBytes(bytes)`: one bulk-copy attempt.  Returns the updated stream,
the number of bytes copied, and the snapshotted `checkedReadPosition`.
Counts are `Nat`: every call site in the source passes a nonempty `bytes`,
and there the count agrees with the source's signed value. -/
def writeBytes (s : SStream) (bytes : List Nat) : SStream × Nat × Nat :=
  let cap := s.data.length
  let currentWritePosition := s.writePos
  let currentReadPosition := s.readPos
  -- Full
  if (currentWritePosition + 1) % cap = currentReadPosition then
    (s, 0, currentReadPosition)
  else
    let contiguousSpace :=
      if currentReadPosition > currentWritePosition then
        currentReadPosition - currentWritePosition
      else
        cap - currentWritePosition
    let bytesToWrite := min bytes.length contiguousSpace
    let nextWritePosition := (currentWritePosition + bytesToWrite) % cap
    -- Never overwrite unread data: on collision shrink the copy by one byte
    -- and step the next write position back by one (wrapping below zero).
    let bytesToWrite' :=
      if nextWritePosition = currentReadPosition then bytesToWrite - 1
      else bytesToWrite
    let nextWritePosition' :=
      if nextWritePosition = currentReadPosition then
        if nextWritePosition = 0 then cap - 1 else nextWritePosition - 1
      else nextWritePosition
    ({ s with
        data := byteSet s.data currentWritePosition (bytes.take bytesToWrite'),
        writePos := nextWritePosition' },
      bytesToWrite', currentReadPosition)

/-- `#readBytes(target, offset)`: one bulk-copy out of the buffer.  Returns
the updated stream, the updated target, and the number of bytes read. -/
def readBytes (s : SStream) (target : List Nat) (offset : Nat) :
    SStream × List Nat × Nat :=
  let cap := s.data.length
  let currentWritePosition := s.writePos
  let currentReadPosition := s.readPos
  let contiguousData :=
    if currentReadPosition < currentWritePosition then
      currentWritePosition - currentReadPosition
    else
      cap - currentReadPosition
  let bytesToRead := min (target.length - offset) contiguousData
  ({ s with readPos := (currentReadPosition + bytesToRead) % cap },
    byteSet target offset ((s.data.drop currentReadPosition).take bytesToRead),
    bytesToRead)

/-- The `writeSync` retry loop.  `fuel` bounds the iterations; an iteration
that copies zero bytes would `Atomics.wait` on an idle channel forever and is
modeled as `none`. -/
def writeSyncLoop (s : SStream) (source : List Nat) (totalBytesWritten : Nat) :
    Nat → Option (SStream × Nat)
  | 0 => none
  | fuel + 1 =>
    if totalBytesWritten < source.length then
      match writeBytes s (source.drop totalBytesWritten) with
      | (s', bytesWritten, _checkedReadPosition) =>
        if bytesWritten > 0 then
          writeSyncLoop s' source (totalBytesWritten + bytesWritten) fuel
        else
          none
    else
      some (s, totalBytesWritten)

/-- `writeSync(source)`. -/
def writeSync (s : SStream) (source : List Nat) (fuel : Nat) :
    Option (SStream × Nat) :=
  writeSyncLoop s source 0 fuel

/-- The `write` (async) retry loop: same predicate logic as `writeSyncLoop`,
the wait realized by `Atomics.waitAsync` instead of `Atomics.wait`, which on
an idle channel is modeled identically as `none`. -/
def writeLoop (s : SStream) (source : List Nat) (totalBytesWritten : Nat) :
    Nat → Option (SStream × Nat)
  | 0 => none
  | fuel + 1 =>
    if totalBytesWritten < source.length then
      match writeBytes s (source.drop totalBytesWritten) with
      | (s', bytesWritten, _checkedReadPosition) =>
        if bytesWritten > 0 then
          writeLoop s' source (totalBytesWritten + bytesWritten) fuel
        else
          none
    else
      some (s, totalBytesWritten)

/-- `write(source)` (async). -/
def write (s : SStream) (source : List Nat) (fuel : Nat) :
    Option (SStream × Nat) :=
  writeLoop s source 0 fuel

/-- The `readSync` loop.  While under `limit`: on empty either latch
end-of-stream (closed) or wait (`none` on an idle channel); otherwise copy a
contiguous chunk out. -/
def readSyncLoop (s : SStream) (target : List Nat) (offset limit : Nat)
    (bytesRead : Nat) : Nat → Option (SStream × List Nat × Nat)
  | 0 => none
  | fuel + 1 =>
    if bytesRead < limit then
      -- Wait for data
      if s.readPos = s.writePos then
        if closed s then
          some (setEndOfStream s, target, bytesRead)
        else
          none
      else
        match readBytes s target (offset + bytesRead) with
        | (s', target', n) =>
          readSyncLoop s' target' offset limit (bytesRead + n) fuel
    else
      some (s, target, bytesRead)

/-- `readSync(target, offset, limit)`: `-1` when end-of-stream is latched,
otherwise the loop's byte count. -/
def readSync (s : SStream) (target : List Nat) (offset limit : Nat)
    (fuel : Nat) : Option (SStream × List Nat × Int) :=
  if endOfStream s then
    some (s, target, -1)
  else
    (readSyncLoop s target offset limit 0 fuel).map
      fun r => (r.1, r.2.1, (r.2.2 : Int))

/-- The `read` (async) loop: same predicate logic as `readSyncLoop`, the wait
realized by `Atomics.waitAsync`, modeled identically. -/
def readLoop (s : SStream) (target : List Nat) (offset limit : Nat)
    (bytesRead : Nat) : Nat → Option (SStream × List Nat × Nat)
  | 0 => none
  | fuel + 1 =>
    if bytesRead < limit then
      if s.readPos = s.writePos then
        if closed s then
          some (setEndOfStream s, target, bytesRead)
        else
          none
      else
        match readBytes s target (offset + bytesRead) with
        | (s', target', n) =>
          readLoop s' target' offset limit (bytesRead + n) fuel
    else
      some (s, target, bytesRead)

/-- `read(target, offset, limit)` (async). -/
def read (s : SStream) (target : List Nat) (offset limit : Nat)
    (fuel : Nat) : Option (SStream × List Nat × Int) :=
  if endOfStream s then
    some (s, target, -1)
  else
    (readLoop s target offset limit 0 fuel).map
      fun r => (r.1, r.2.1, (r.2.2 : Int))

/-- Constructor modeling (`constructor(sizeInBytes: number)`):
`static #indexBytes = 3 * 4`. -/
def indexBytes : Nat := 3 * 4

/-- Byte length of the freshly allocated shared buffer:
`new SharedArrayBuffer(sizeInBytes + indexBytes)`. -/
def bufferByteLength (sizeInBytes : Nat) : Nat :=
  sizeInBytes + indexBytes

/-- `new Int32Array(buffer, byteOffset, length)` succeeds iff the offset is
4-byte aligned and `byteOffset + 4 * length` fits in the buffer (`length`
counts 32-bit elements). -/
def int32ViewOk (byteLength byteOffset length : Nat) : Bool :=
  byteOffset % 4 == 0 && byteOffset + 4 * length ≤ byteLength

/-- Construction from a capacity succeeds iff the control view
`new Int32Array(buffer, 0, indexBytes)` fits: the source passes `indexBytes`
(= 12) as the element count, demanding 48 bytes. -/
def constructOk (sizeInBytes : Nat) : Bool :=
  int32ViewOk (bufferByteLength sizeInBytes) 0 indexBytes

/-- `new Uint8Array(buffer, indexBytes)`: the data region starts at byte 12. -/
def dataByteOffset : Nat := indexBytes

/-- The word indices the class ever passes to `Atomics` operations on the
control view: 0 (`readPosition`), 1 (`writePosition`), 2 (`state`). -/
def accessedWords : List Nat := [0, 1, 2]

/-- A sequence of producer calls: each element selects the async (`write`) or
blocking (`writeSync`) variant and carries the chunk to hand to that call. -/
def runWrites (s : SStream) (calls : List (Bool × List Nat)) (fuel : Nat) :
    Option SStream :=
  match calls with
  | [] => some s
  | (useAsync, chunk) :: rest =>
    match (if useAsync then write s chunk fuel else writeSync s chunk fuel) with
    | some (s', _) => runWrites s' rest fuel
    | none => none

/-- A sequence of consumer calls: each element selects the variant and a
`limit`; each call reads into a fresh zeroed target of length `limit` at
offset 0, and the delivered targets are collected in order. -/
def runReads (s : SStream) (calls : List (Bool × Nat)) (fuel : Nat) :
    Option (SStream × List (List Nat)) :=
  match calls with
  | [] => some (s, [])
  | (useAsync, limit) :: rest =>
    match (if useAsync then read s (List.replicate limit 0) 0 limit fuel
           else readSync s (List.replicate limit 0) 0 limit fuel) with
    | some (s', t', _) =>
      match runReads s' rest fuel with
      | some (s'', ts) => some (s'', t' :: ts)
      | none => none
    | none => none

/-! ### Abstraction: buffered contents and validity -/

/-- The unread bytes currently buffered, in FIFO order: from `readPos` up to
`writePos`, wrapping around the end of the data region. -/
def contents (s : SStream) : List Nat :=
  if s.readPos ≤ s.writePos then
    (s.data.drop s.readPos).take (s.writePos - s.readPos)
  else
    s.data.drop s.readPos ++ s.data.take s.writePos

/-- Control-block validity: both cursors inside the data region, capacity at
least 2 (one slot is always kept empty). -/
def Valid (s : SStream) : Prop :=
  s.readPos < s.data.length ∧ s.writePos < s.data.length ∧ 2 ≤ s.data.length

/-- The buffer-full predicate from `#writeBytes`. -/
def full (s : SStream) : Prop :=
  (s.writePos + 1) % s.data.length = s.readPos

instance (s : SStream) : Decidable (full s) := by
  unfold full
  infer_instance

instance (s : SStream) : Decidable (Valid s) := by
  unfold Valid
  infer_instance

/-! ### Helper lemmas about `byteSet` -/

theorem length_byteSet {t src : List Nat} {pos : Nat}
    (h : pos + src.length ≤ t.length) :
    (byteSet t pos src).length = t.length := by
  simp only [byteSet, List.length_append, List.length_take, List.length_drop]
  omega

theorem byteSet_nil (t : List Nat) (pos : Nat) : byteSet t pos [] = t := by
  simp [byteSet]

/-- Everything at or past `pos + src.length` is untouched by `byteSet`. -/
theorem byteSet_drop_of_le {d c : List Nat} {p m : Nat}
    (hp : p ≤ d.length) (h : p + c.length ≤ m) :
    (byteSet d p c).drop m = d.drop m := by
  unfold byteSet
  have hlen : (List.take p d ++ c).length = p + c.length := by
    simp
    omega
  rw [List.drop_append_eq_append_drop, hlen,
    List.drop_eq_nil_of_le (by rw [hlen]; exact h), List.nil_append,
    List.drop_drop]
  congr 1
  omega

/-- The prefix of length `pos + src.length` of a `byteSet` is the old prefix
followed by `src`. -/
theorem byteSet_take_eq {d c : List Nat} {p : Nat} (hp : p ≤ d.length) :
    (byteSet d p c).take (p + c.length) = d.take p ++ c := by
  unfold byteSet
  exact List.take_left' (by simp; omega)

/-- Dropping `r ≤ pos` positions from a `byteSet`. -/
theorem byteSet_drop_of_ge {d c : List Nat} {p r : Nat}
    (hr : r ≤ p) (hp : p ≤ d.length) :
    (byteSet d p c).drop r =
      (d.drop r).take (p - r) ++ c ++ d.drop (p + c.length) := by
  unfold byteSet
  have h1 : (List.take p d).length = p := by simp; omega
  have h2 : (List.take p d ++ c).length = p + c.length := by simp; omega
  rw [List.drop_append_eq_append_drop, h2,
    show r - (p + c.length) = 0 by omega, List.drop_zero,
    List.drop_append_eq_append_drop, h1, show r - p = 0 by omega,
    List.drop_zero, List.drop_take]

/-- Composing two adjacent `byteSet`s that copy successive slices of `c`. -/
theorem byteSet_byteSet {t c : List Nat} {off k n : Nat}
    (hoff : off ≤ t.length) (hk : k ≤ c.length) (hkn : k + n ≤ c.length) :
    byteSet (byteSet t off (c.take k)) (off + k) ((c.drop k).take n) =
      byteSet t off (c.take (k + n)) := by
  have hklen : (c.take k).length = k := by simp; omega
  have hslen : ((c.drop k).take n).length = n := by simp; omega
  have hknlen : (c.take (k + n)).length = k + n := by simp; omega
  have htake : (byteSet t off (c.take k)).take (off + k) = t.take off ++ c.take k := by
    have h := byteSet_take_eq (d := t) (c := c.take k) (p := off) hoff
    rwa [hklen] at h
  have hdrop : (byteSet t off (c.take k)).drop (off + k + n) = t.drop (off + k + n) := by
    apply byteSet_drop_of_le hoff
    rw [hklen]
    omega
  conv_lhs => rw [byteSet]
  rw [hslen, htake, hdrop]
  conv_rhs => rw [byteSet]
  rw [hknlen, List.take_add, ← List.append_assoc, Nat.add_assoc]

/-! ### Helper lemmas about `contents`, `Valid`, `full` -/

theorem length_contents {s : SStream} (h : Valid s) :
    (contents s).length =
      if s.readPos ≤ s.writePos then s.writePos - s.readPos
      else s.data.length - s.readPos + s.writePos := by
  obtain ⟨hr, hw, hc⟩ := h
  unfold contents
  split <;> simp <;> omega

theorem contents_length_le {s : SStream} (h : Valid s) :
    (contents s).length ≤ s.data.length - 1 := by
  obtain ⟨hr, hw, hc⟩ := id h
  rw [length_contents h]
  split <;> omega

theorem contents_eq_nil_iff {s : SStream} (h : Valid s) :
    contents s = [] ↔ s.readPos = s.writePos := by
  obtain ⟨hr, hw, hc⟩ := id h
  rw [← List.length_eq_zero, length_contents h]
  split <;> omega

theorem full_iff {s : SStream} (h : Valid s) :
    full s ↔ (contents s).length = s.data.length - 1 := by
  obtain ⟨hr, hw, hc⟩ := id h
  rw [length_contents h]
  unfold full
  rcases Nat.lt_or_ge (s.writePos + 1) s.data.length with h1 | h1
  · rw [Nat.mod_eq_of_lt h1]
    split <;> omega
  · have h2 : s.writePos + 1 = s.data.length := by omega
    rw [h2, Nat.mod_self]
    split <;> omega

/-! ### One-step specifications -/

theorem writeBytes_spec {s : SStream} {bytes : List Nat}
    (hv : Valid s) (hb : bytes ≠ []) (hnf : ¬ full s) :
    ∃ s' n,
      writeBytes s bytes = (s', n, s.readPos) ∧
      1 ≤ n ∧ n ≤ bytes.length ∧
      s'.readPos = s.readPos ∧ s'.state = s.state ∧
      s'.data.length = s.data.length ∧ Valid s' ∧
      contents s' = contents s ++ bytes.take n := by
  obtain ⟨hr, hw, hc⟩ := hv
  have hnf' : ¬((s.writePos + 1) % s.data.length = s.readPos) := hnf
  have hblen : 1 ≤ bytes.length := List.length_pos.mpr hb
  by_cases hgt : s.readPos > s.writePos
  · -- read cursor ahead: the contiguous span ends at `readPos`
    -- first bring the attempt into the explicit form for this branch
    have key : ∃ n, 1 ≤ n ∧ n ≤ bytes.length ∧ s.writePos + n < s.readPos ∧
        writeBytes s bytes =
          ({ s with
              data := byteSet s.data s.writePos (bytes.take n),
              writePos := s.writePos + n }, n, s.readPos) := by
      unfold writeBytes
      dsimp only
      rw [if_neg hnf', if_pos hgt]
      generalize hb0 : bytes.length ⊓ (s.readPos - s.writePos) = b
      have hb1 : 1 ≤ b := by omega
      have hb2 : b ≤ s.readPos - s.writePos := by omega
      have hb3 : b ≤ bytes.length := by omega
      have hmod : (s.writePos + b) % s.data.length = s.writePos + b :=
        Nat.mod_eq_of_lt (by omega)
      rw [hmod]
      by_cases hcol : s.writePos + b = s.readPos
      · -- collision: shrink by one
        have hb4 : b ≠ 1 := by
          intro h1
          apply hnf'
          rw [h1] at hcol
          rw [Nat.mod_eq_of_lt (by omega)]
          exact hcol
        rw [if_pos hcol, if_pos hcol, if_neg (show ¬(s.writePos + b = 0) by omega)]
        exact ⟨b - 1, by omega, by omega, by omega, by
          rw [show s.writePos + b - 1 = s.writePos + (b - 1) by omega]⟩
      · rw [if_neg hcol, if_neg hcol]
        exact ⟨b, hb1, hb3, by omega, rfl⟩
    obtain ⟨n, hn1, hn2, hn3, heq⟩ := key
    refine ⟨_, n, heq, hn1, hn2, rfl, rfl, ?_, ?_, ?_⟩
    · exact length_byteSet (by simp; omega)
    · refine ⟨?_, ?_, ?_⟩ <;>
        simp only [length_byteSet (show s.writePos + (bytes.take n).length ≤ s.data.length
          by simp; omega)] <;> omega
    · have hdl : (byteSet s.data s.writePos (bytes.take n)).length = s.data.length :=
        length_byteSet (by simp; omega)
      have htlen : (bytes.take n).length = n := by simp; omega
      unfold contents
      dsimp only
      rw [if_neg (by omega), if_neg (by omega)]
      rw [byteSet_drop_of_le (by omega) (by rw [htlen]; omega)]
      have := byteSet_take_eq (d := s.data) (c := bytes.take n) (p := s.writePos) (by omega)
      rw [htlen] at this
      rw [this, List.append_assoc]
  · -- write cursor at or past read cursor: span runs to the end of the array
    push_neg at hgt
    unfold writeBytes
    dsimp only
    rw [if_neg hnf', if_neg (by omega : ¬(s.readPos > s.writePos))]
    generalize hb0 : bytes.length ⊓ (s.data.length - s.writePos) = b
    have hb1 : 1 ≤ b := by omega
    have hb2 : b ≤ s.data.length - s.writePos := by omega
    have hb3 : b ≤ bytes.length := by omega
    rcases Nat.lt_or_ge (s.writePos + b) s.data.length with hlt | hge
    · -- no wraparound this attempt
      rw [Nat.mod_eq_of_lt hlt, if_neg (by omega : ¬(s.writePos + b = s.readPos)),
        if_neg (by omega : ¬(s.writePos + b = s.readPos))]
      have htlen : (bytes.take b).length = b := by simp; omega
      refine ⟨_, b, rfl, hb1, hb3, rfl, rfl, ?_, ?_, ?_⟩
      · exact length_byteSet (by rw [htlen]; omega)
      · refine ⟨?_, ?_, ?_⟩ <;>
          simp only [length_byteSet (show s.writePos + (bytes.take b).length ≤ s.data.length
            by simp; omega)] <;> omega
      · unfold contents
        dsimp only
        rw [if_pos (by omega : s.readPos ≤ s.writePos + b),
          if_pos (by omega : s.readPos ≤ s.writePos)]
        have hge' := byteSet_drop_of_ge (d := s.data) (c := bytes.take b)
          (p := s.writePos) (r := s.readPos) (by omega) (by omega)
        rw [htlen] at hge'
        rw [hge']
        exact List.take_left' (by simp; omega)
    · -- the copy reaches the physical end of the array
      have hwrap : s.writePos + b = s.data.length := by omega
      rw [hwrap, Nat.mod_self]
      by_cases hr0 : s.readPos = 0
      · -- collision at index 0: shrink by one
        have hb4 : b ≠ 1 := by
          intro h1
          apply hnf'
          rw [show (s.writePos + 1) % s.data.length = 0 by
            rw [show s.writePos + 1 = s.data.length by omega, Nat.mod_self]]
          omega
        rw [if_pos (by omega : (0 : Nat) = s.readPos),
          if_pos (by omega : (0 : Nat) = s.readPos), if_pos rfl]
        have htlen : (bytes.take (b - 1)).length = b - 1 := by simp; omega
        refine ⟨_, b - 1, rfl, by omega, by omega, rfl, rfl, ?_, ?_, ?_⟩
        · exact length_byteSet (by rw [htlen]; omega)
        · refine ⟨?_, ?_, ?_⟩ <;>
            simp only [length_byteSet (show s.writePos + (bytes.take (b - 1)).length ≤ s.data.length
              by simp; omega)] <;> omega
        · unfold contents
          dsimp only
          rw [if_pos (by omega : s.readPos ≤ s.data.length - 1),
            if_pos (by omega : s.readPos ≤ s.writePos), hr0, List.drop_zero,
            List.drop_zero, Nat.sub_zero, Nat.sub_zero]
          have hteq := byteSet_take_eq (d := s.data) (c := bytes.take (b - 1))
            (p := s.writePos) (by omega)
          rw [htlen, show s.writePos + (b - 1) = s.data.length - 1 by omega] at hteq
          rw [hteq]
      · -- wraparound publish: next write position becomes 0
        rw [if_neg (by omega : ¬((0 : Nat) = s.readPos)),
          if_neg (by omega : ¬((0 : Nat) = s.readPos))]
        have htlen : (bytes.take b).length = b := by simp; omega
        refine ⟨_, b, rfl, hb1, hb3, rfl, rfl, ?_, ?_, ?_⟩
        · exact length_byteSet (by rw [htlen]; omega)
        · refine ⟨?_, ?_, ?_⟩ <;>
            simp only [length_byteSet (show s.writePos + (bytes.take b).length ≤ s.data.length
              by simp; omega)] <;> omega
        · unfold contents
          dsimp only
          rw [if_neg (by omega : ¬(s.readPos ≤ 0)),
            if_pos (by omega : s.readPos ≤ s.writePos), List.take_zero,
            List.append_nil]
          have hge' := byteSet_drop_of_ge (d := s.data) (c := bytes.take b)
            (p := s.writePos) (r := s.readPos) (by omega) (by omega)
          rw [htlen, show s.writePos + b = s.data.length from hwrap,
            List.drop_length, List.append_nil] at hge'
          rw [hge']

/-- `#readBytes` on a valid, nonempty stream: delivers the next chunk of the
buffered contents into the target and drops it from the contents; `writePos`,
`state` and the data region are unchanged. -/
theorem readBytes_spec {s : SStream} {t : List Nat} {o : Nat}
    (hv : Valid s) (hne : s.readPos ≠ s.writePos) :
    ∃ s' t' n,
      readBytes s t o = (s', t', n) ∧
      n ≤ (contents s).length ∧ n ≤ t.length - o ∧
      (o < t.length → 1 ≤ n) ∧
      ((contents s).length ≤ t.length - o →
        n = if s.readPos < s.writePos then s.writePos - s.readPos
            else s.data.length - s.readPos) ∧
      t' = byteSet t o ((contents s).take n) ∧
      contents s' = (contents s).drop n ∧
      s'.writePos = s.writePos ∧ s'.state = s.state ∧ s'.data = s.data ∧
      Valid s' := by
  obtain ⟨hr, hw, hc⟩ := hv
  by_cases hlt : s.readPos < s.writePos
  · have hcont : contents s = (s.data.drop s.readPos).take (s.writePos - s.readPos) := by
      unfold contents
      rw [if_pos (Nat.le_of_lt hlt)]
    have hclen : (contents s).length = s.writePos - s.readPos := by
      rw [hcont]; simp; omega
    unfold readBytes
    dsimp only
    rw [if_pos hlt]
    generalize hn0 : (t.length - o) ⊓ (s.writePos - s.readPos) = n
    have hn1 : n ≤ s.writePos - s.readPos := by omega
    have hn2 : n ≤ t.length - o := by omega
    rw [Nat.mod_eq_of_lt (show s.readPos + n < s.data.length by omega)]
    refine ⟨_, _, n, rfl, by omega, hn2, by omega, ?_, ?_, ?_, rfl, rfl, rfl,
      ⟨by dsimp only; omega, by dsimp only; omega, by dsimp only; omega⟩⟩
    · rw [hclen]
      omega
    · rw [hcont, List.take_take, Nat.min_eq_left hn1]
    · show contents { s with readPos := s.readPos + n } = (contents s).drop n
      rw [hcont, List.drop_take, List.drop_drop,
        show s.writePos - s.readPos - n = s.writePos - (s.readPos + n) by omega]
      unfold contents
      dsimp only
      rw [if_pos (show s.readPos + n ≤ s.writePos by omega)]
  · have hgt : s.writePos < s.readPos := by omega
    have hcont : contents s = s.data.drop s.readPos ++ s.data.take s.writePos := by
      unfold contents
      rw [if_neg (by omega)]
    have hclen : (contents s).length = s.data.length - s.readPos + s.writePos := by
      rw [hcont]; simp; omega
    unfold readBytes
    dsimp only
    rw [if_neg (by omega : ¬(s.readPos < s.writePos))]
    generalize hn0 : (t.length - o) ⊓ (s.data.length - s.readPos) = n
    have hn1 : n ≤ s.data.length - s.readPos := by omega
    have hn2 : n ≤ t.length - o := by omega
    have hdroplen : (s.data.drop s.readPos).length = s.data.length - s.readPos := by
      simp
    have hseg : (contents s).take n = (s.data.drop s.readPos).take n := by
      rw [hcont, List.take_append_eq_append_take, hdroplen,
        show n - (s.data.length - s.readPos) = 0 by omega, List.take_zero,
        List.append_nil]
    have hdropc : (contents s).drop n =
        (s.data.drop s.readPos).drop n ++ s.data.take s.writePos := by
      rw [hcont, List.drop_append_eq_append_drop, hdroplen,
        show n - (s.data.length - s.readPos) = 0 by omega, List.drop_zero]
    rcases Nat.lt_or_ge (s.readPos + n) s.data.length with hlt2 | hge2
    · rw [Nat.mod_eq_of_lt hlt2]
      refine ⟨_, _, n, rfl, by omega, hn2, by omega, ?_, ?_, ?_, rfl, rfl, rfl,
        ⟨by dsimp only; omega, by dsimp only; omega, by dsimp only; omega⟩⟩
      · rw [hclen]
        omega
      · rw [hseg]
      · show contents { s with readPos := s.readPos + n } = (contents s).drop n
        rw [hdropc, List.drop_drop]
        unfold contents
        dsimp only
        rw [if_neg (show ¬(s.readPos + n ≤ s.writePos) by omega)]
    · have hn3 : s.readPos + n = s.data.length := by omega
      rw [show (s.readPos + n) % s.data.length = 0 by rw [hn3, Nat.mod_self]]
      refine ⟨_, _, n, rfl, by omega, hn2, by omega, ?_, ?_, ?_, rfl, rfl, rfl,
        ⟨by dsimp only; omega, by dsimp only; omega, by dsimp only; omega⟩⟩
      · rw [hclen]
        omega
      · rw [hseg]
      · show contents { s with readPos := 0 } = (contents s).drop n
        rw [hdropc, List.drop_drop, hn3, List.drop_length, List.nil_append]
        unfold contents
        dsimp only
        rw [if_pos (Nat.zero_le _), List.drop_zero, Nat.sub_zero]

/-! ### Loop-level lemmas -/

/-- The `writeSync` loop writes everything when the free space suffices. -/
theorem writeSyncLoop_run {s : SStream} {c : List Nat} {k f : Nat}
    (hv : Valid s) (hk : k ≤ c.length)
    (hroom : (contents s).length + (c.length - k) ≤ s.data.length - 1)
    (hfuel : c.length - k < f) :
    ∃ s', writeSyncLoop s c k f = some (s', c.length) ∧
      Valid s' ∧ s'.state = s.state ∧ s'.data.length = s.data.length ∧
      contents s' = contents s ++ c.drop k := by
  induction f generalizing s k with
  | zero => omega
  | succ f ih =>
    rcases Nat.lt_or_ge k c.length with hlt | hge
    · have hb : c.drop k ≠ [] := by
        intro h
        have hlen := congrArg List.length h
        simp at hlen
        omega
      have hnf : ¬ full s := by
        intro hf
        rw [full_iff hv] at hf
        omega
      obtain ⟨s', n, heq, hn1, hn2, _hrp, hst, hdl, hv', hcont⟩ :=
        writeBytes_spec hv hb hnf
      have hn2' : n ≤ c.length - k := by
        have hdk : (c.drop k).length = c.length - k := by simp
        omega
      have hclen' : (contents s').length = (contents s).length + n := by
        rw [hcont]
        simp
        omega
      unfold writeSyncLoop
      rw [if_pos hlt, heq]
      dsimp only
      rw [if_pos (by omega : n > 0)]
      obtain ⟨s'', heq2, hv'', hst2, hdl2, hcont2⟩ :=
        ih hv' (k := k + n) (by omega) (by rw [hclen', hdl]; omega) (by omega)
      refine ⟨s'', heq2, hv'', by rw [hst2, hst], by rw [hdl2, hdl], ?_⟩
      rw [hcont2, hcont, List.append_assoc, List.drop_take_append_drop]
    · unfold writeSyncLoop
      rw [if_neg (by omega)]
      refine ⟨s, by rw [show k = c.length by omega], hv, rfl, rfl, ?_⟩
      rw [show k = c.length by omega, List.drop_length, List.append_nil]

/-- The `readSync` loop reads exactly `limit` bytes when the target has
exactly `limit` remaining slots and the buffer holds enough. -/
theorem readSyncLoop_exact {s : SStream} {t : List Nat} {o l k f : Nat}
    (hv : Valid s) (hk : k ≤ l) (hrem : l ≤ k + (contents s).length)
    (htlen : t.length = o + l) (hfuel : l - k < f) :
    ∃ s', readSyncLoop s t o l k f =
        some (s', byteSet t (o + k) ((contents s).take (l - k)), l) ∧
      Valid s' ∧ s'.writePos = s.writePos ∧ s'.state = s.state ∧
      s'.data = s.data ∧ contents s' = (contents s).drop (l - k) := by
  induction f generalizing s t k with
  | zero => omega
  | succ f ih =>
    rcases Nat.lt_or_ge k l with hlt | hge
    · have hne : s.readPos ≠ s.writePos := by
        intro h
        rw [← contents_eq_nil_iff hv, ← List.length_eq_zero] at h
        omega
      obtain ⟨s', t', n, heq, hnc, hnsp, hpos, _hex, ht', hcont', hwp, hst, hdata, hv'⟩ :=
        readBytes_spec (t := t) (o := o + k) hv hne
      have hn1 : 1 ≤ n := hpos (by omega)
      have hnlim : n ≤ l - k := by omega
      have htake_n : ((contents s).take n).length = n := by simp; omega
      have ht'len : t'.length = o + l := by
        rw [ht', length_byteSet (by rw [htake_n]; omega), htlen]
      unfold readSyncLoop
      rw [if_pos hlt, if_neg hne, heq]
      dsimp only
      obtain ⟨s'', heq2, hv'', hwp2, hst2, hdata2, hcont2⟩ :=
        ih hv' (t := t') (k := k + n) (by omega)
          (by rw [hcont']; simp; omega) ht'len (by omega)
      refine ⟨s'', ?_, hv'', by rw [hwp2, hwp], by rw [hst2, hst],
        by rw [hdata2, hdata], ?_⟩
      · rw [heq2, hcont', ht',
          show o + (k + n) = (o + k) + n by omega,
          byteSet_byteSet (by omega) (by omega) (by omega),
          show n + (l - (k + n)) = l - k by omega]
      · rw [hcont2, hcont', List.drop_drop,
          show n + (l - (k + n)) = l - k by omega]
    · unfold readSyncLoop
      rw [if_neg (by omega)]
      refine ⟨s, ?_, hv, rfl, rfl, rfl, ?_⟩
      · rw [show l - k = 0 by omega, List.take_zero, byteSet_nil,
          show k = l by omega]
      · rw [show l - k = 0 by omega, List.drop_zero]

/-- The `readSync` loop on a closed stream with fewer than `limit` buffered
bytes drains everything, latches end-of-stream, and returns the total. -/
theorem readSyncLoop_drain {s : SStream} {t : List Nat} {o l k f : Nat}
    (hv : Valid s) (hcl : s.state ≠ 0)
    (hlim : k + (contents s).length < l)
    (hsp : o + k + (contents s).length ≤ t.length)
    (hfuel : (contents s).length < f) :
    readSyncLoop s t o l k f =
      some ({ s with readPos := s.writePos, state := s.state ||| 2 },
        byteSet t (o + k) (contents s), k + (contents s).length) := by
  induction f generalizing s t k with
  | zero => omega
  | succ f ih =>
    by_cases hemp : s.readPos = s.writePos
    · have hcnil : contents s = [] := (contents_eq_nil_iff hv).mpr hemp
      unfold readSyncLoop
      rw [if_pos (by omega), if_pos hemp,
        if_pos (show closed s = true by simp [closed]; exact hcl)]
      rw [hcnil, byteSet_nil, List.length_nil, Nat.add_zero]
      unfold setEndOfStream
      rw [hemp]
    · have hcpos : (contents s).length ≠ 0 := by
        intro h
        exact hemp ((contents_eq_nil_iff hv).mp (List.length_eq_zero.mp h))
      obtain ⟨s', t', n, heq, hnc, hnsp, hpos, _hex, ht', hcont', hwp, hst, hdata, hv'⟩ :=
        readBytes_spec (t := t) (o := o + k) hv hemp
      have hn1 : 1 ≤ n := hpos (by omega)
      have htake_n : ((contents s).take n).length = n := by simp; omega
      have ht'len : t'.length = t.length := by
        rw [ht', length_byteSet (by rw [htake_n]; omega)]
      unfold readSyncLoop
      rw [if_pos (by omega), if_neg hemp, heq]
      dsimp only
      have happ := ih (s := s') (t := t') (k := k + n) hv'
        (by rw [hst]; exact hcl)
        (by rw [hcont']; simp; omega)
        (by rw [hcont', ht'len]; simp; omega)
        (by rw [hcont']; simp; omega)
      have htgt : byteSet (byteSet t (o + k) ((contents s).take n)) (o + (k + n))
          ((contents s).drop n) = byteSet t (o + k) (contents s) := by
        conv_lhs => rw [← List.take_length (l := (contents s).drop n)]
        rw [show o + (k + n) = (o + k) + n by omega,
          byteSet_byteSet (by omega) (by omega) (by simp; omega),
          show n + ((contents s).drop n).length = (contents s).length by simp; omega,
          List.take_length]
      rw [happ, hwp, hst, hdata, hcont', ht', htgt,
        show k + n + ((contents s).drop n).length = k + (contents s).length by
          simp; omega]

/-- `write` and `writeSync` share one loop: on an idle channel the realization
of the wait makes no difference. -/
theorem writeLoop_eq_writeSyncLoop (s : SStream) (source : List Nat)
    (k fuel : Nat) : writeLoop s source k fuel = writeSyncLoop s source k fuel := by
  induction fuel generalizing s k with
  | zero => rfl
  | succ fuel ih =>
    unfold writeLoop writeSyncLoop
    rcases heq : writeBytes s (source.drop k) with ⟨s', n, rp⟩
    split
    · dsimp only
      split
      · exact ih s' (k + n)
      · rfl
    · rfl

/-- `read` and `readSync` share one loop. -/
theorem readLoop_eq_readSyncLoop (s : SStream) (t : List Nat)
    (off limit k fuel : Nat) :
    readLoop s t off limit k fuel = readSyncLoop s t off limit k fuel := by
  induction fuel generalizing s t k with
  | zero => rfl
  | succ fuel ih =>
    unfold readLoop readSyncLoop
    rcases heq : readBytes s t (off + k) with ⟨s', t', n⟩
    split
    · split
      · rfl
      · dsimp only
        exact ih s' t' (k + n)
    · rfl

/-! ### Claim theorems -/

/-- C2: a `#writeBytes` attempt on a valid state never publishes a write
position equal to the snapshotted read position, so at most `capacity - 1`
unread bytes are ever buffered. -/
theorem writeBytes_no_overwrite {s : SStream} {bytes : List Nat}
    (hv : Valid s) (hb : bytes ≠ []) :
    (writeBytes s bytes).1.writePos ≠ s.readPos ∧
    (contents (writeBytes s bytes).1).length ≤ s.data.length - 1 := by
  by_cases hf : (s.writePos + 1) % s.data.length = s.readPos
  · obtain ⟨hr, hw, hc⟩ := id hv
    have heq : writeBytes s bytes = (s, 0, s.readPos) := by
      unfold writeBytes
      rw [if_pos hf]
    rw [heq]
    refine ⟨?_, contents_length_le hv⟩
    intro hwr
    rw [hwr] at hf
    rcases Nat.lt_or_ge (s.readPos + 1) s.data.length with h1 | h1
    · rw [Nat.mod_eq_of_lt h1] at hf
      omega
    · rw [show s.readPos + 1 = s.data.length by omega, Nat.mod_self] at hf
      omega
  · obtain ⟨s', n, heq, hn1, hn2, hrp, hst, hdl, hv', hcont⟩ :=
      writeBytes_spec hv hb hf
    rw [heq]
    dsimp only
    have hlen : (contents s').length = (contents s).length + n := by
      rw [hcont]
      simp
      omega
    constructor
    · intro hwr
      have hnil : contents s' = [] := (contents_eq_nil_iff hv').mpr (by rw [hrp, hwr])
      rw [hnil] at hlen
      simp at hlen
      omega
    · rw [← hdl]
      exact contents_length_le hv'

/-- C6: with a nonempty input, `#writeBytes` copies zero bytes exactly when
the buffer was full at the snapshot, and copies at least one byte whenever it
was not (even after the collision-avoiding shrink). -/
theorem writeBytes_zero_iff_full {s : SStream} {bytes : List Nat}
    (hv : Valid s) (hb : bytes ≠ []) :
    ((writeBytes s bytes).2.1 = 0 ↔ (s.writePos + 1) % s.data.length = s.readPos) ∧
    (¬ (s.writePos + 1) % s.data.length = s.readPos → 1 ≤ (writeBytes s bytes).2.1) := by
  by_cases hf : (s.writePos + 1) % s.data.length = s.readPos
  · have heq : writeBytes s bytes = (s, 0, s.readPos) := by
      unfold writeBytes
      rw [if_pos hf]
    rw [heq]
    exact ⟨by simp [hf], fun h => absurd hf h⟩
  · obtain ⟨s', n, heq, hn1, _, _, _, _, _, _⟩ := writeBytes_spec hv hb hf
    rw [heq]
    dsimp only
    refine ⟨⟨fun h => ?_, fun h => absurd h hf⟩, fun _ => hn1⟩
    omega

/-- Any single `#writeBytes` attempt reports at most `bytes.length` copied. -/
theorem writeBytes_count_le (s : SStream) (bytes : List Nat) :
    (writeBytes s bytes).2.1 ≤ bytes.length := by
  unfold writeBytes
  dsimp only
  split_ifs <;> dsimp only <;> omega

/-- The `writeSync` loop only ever returns the full requested length. -/
theorem writeSyncLoop_total {source : List Nat} : ∀ {fuel : Nat} {s : SStream}
    {k : Nat} {s' : SStream} {total : Nat}, k ≤ source.length →
    writeSyncLoop s source k fuel = some (s', total) → total = source.length := by
  intro fuel
  induction fuel with
  | zero =>
    intro s k s' total hk h
    exact absurd h (by unfold writeSyncLoop; simp)
  | succ fuel ih =>
    intro s k s' total hk h
    unfold writeSyncLoop at h
    by_cases hlt : k < source.length
    · rw [if_pos hlt] at h
      rcases heq : writeBytes s (source.drop k) with ⟨s1, n, rp⟩
      rw [heq] at h
      dsimp only at h
      by_cases hn : n > 0
      · rw [if_pos hn] at h
        have hcle := writeBytes_count_le s (source.drop k)
        rw [heq] at hcle
        dsimp only at hcle
        have hdk : (source.drop k).length = source.length - k := by simp
        exact ih (by omega) h
      · rw [if_neg hn] at h
        exact absurd h (by simp)
    · rw [if_neg hlt] at h
      cases h
      omega

/-- C7: whenever `write` or `writeSync` terminates normally it returns exactly
`source.length` — never a short count on transient fullness. -/
theorem write_returns_full_length {s : SStream} {source : List Nat}
    {fuel : Nat} {s' : SStream} {total : Nat}
    (h : write s source fuel = some (s', total) ∨
      writeSync s source fuel = some (s', total)) : total = source.length := by
  rcases h with h | h
  · unfold write at h
    rw [writeLoop_eq_writeSyncLoop] at h
    exact writeSyncLoop_total (Nat.zero_le _) h
  · exact writeSyncLoop_total (Nat.zero_le _) h

/-- C4: once end-of-stream is latched (`state > 1`), both `readSync` and
`read` return `-1` immediately, leaving stream and target untouched. -/
theorem eos_terminal {s : SStream} {target : List Nat} {offset limit fuel : Nat}
    (h : 1 < s.state) :
    readSync s target offset limit fuel = some (s, target, -1) ∧
    read s target offset limit fuel = some (s, target, -1) := by
  have he : endOfStream s = true := by
    simp [endOfStream]
    omega
  constructor
  · unfold readSync
    rw [if_pos he]
  · unfold read
    rw [if_pos he]

/-- C8: `reset()` zeroes the three control words and changes nothing else:
the data region (hence the capacity) is untouched. -/
theorem reset_restores_virgin_state (s : SStream) :
    (reset s).readPos = 0 ∧ (reset s).writePos = 0 ∧ (reset s).state = 0 ∧
    (reset s).data = s.data ∧ (reset s).data.length = s.data.length :=
  ⟨rfl, rfl, rfl, rfl, rfl⟩

/-- C10: constructing from a numeric capacity succeeds iff the capacity is at
least 36 bytes (the control view demands `indexBytes = 12` 32-bit elements,
48 bytes); the data region starts at byte offset 12, and the only words the
class touches lie inside the 12-byte control block. -/
theorem construction_requires_36 :
    (∀ sizeInBytes : Nat, constructOk sizeInBytes = true ↔ 36 ≤ sizeInBytes) ∧
    dataByteOffset = 12 ∧
    (∀ i ∈ accessedWords, 4 * i + 4 ≤ indexBytes) := by
  refine ⟨fun n => ?_, rfl, by decide⟩
  simp only [constructOk, int32ViewOk, bufferByteLength, indexBytes,
    Bool.and_eq_true, decide_eq_true_eq, beq_iff_eq, Nat.zero_mod, true_and]
  omega

/-- C9: the async `write`/`read` and the blocking `writeSync`/`readSync` are
the same state machine: with the wait step realized identically on an idle
channel, they return the same results from every state. -/
theorem sync_async_refinement :
    (∀ (s : SStream) (source : List Nat) (fuel : Nat),
      write s source fuel = writeSync s source fuel) ∧
    (∀ (s : SStream) (target : List Nat) (offset limit fuel : Nat),
      read s target offset limit fuel = readSync s target offset limit fuel) := by
  constructor
  · intro s source fuel
    unfold write writeSync
    exact writeLoop_eq_writeSyncLoop s source 0 fuel
  · intro s target offset limit fuel
    unfold read readSync
    rw [readLoop_eq_readSyncLoop]

/-- A single `#readBytes` never copies more than the remaining target space. -/
theorem readBytes_count_le_space (s : SStream) (t : List Nat) (off : Nat) :
    (readBytes s t off).2.2 ≤ t.length - off := by
  unfold readBytes
  dsimp only
  split_ifs <;> omega

/-- `#readBytes` preserves the target's length. -/
theorem readBytes_target_length (s : SStream) (t : List Nat) (off : Nat) :
    (readBytes s t off).2.1.length = t.length := by
  unfold readBytes
  dsimp only
  rcases Nat.lt_or_ge t.length off with hlt2 | hle
  · rw [show t.length - off = 0 by omega, Nat.zero_min, List.take_zero,
      byteSet_nil]
  · apply length_byteSet
    simp
    split <;> omega

/-- The `readSync` loop never exceeds `limit` when the target's remaining
space fits under `limit`. -/
theorem readSyncLoop_le {off limit : Nat} : ∀ {fuel : Nat} {s : SStream}
    {t : List Nat} {k total : Nat} {s' : SStream} {t' : List Nat},
    t.length ≤ off + limit → k ≤ limit →
    readSyncLoop s t off limit k fuel = some (s', t', total) → total ≤ limit := by
  intro fuel
  induction fuel with
  | zero =>
    intro s t k total s' t' h1 h2 h
    exact absurd h (by unfold readSyncLoop; simp)
  | succ fuel ih =>
    intro s t k total s' t' h1 h2 h
    unfold readSyncLoop at h
    by_cases hlt : k < limit
    · rw [if_pos hlt] at h
      by_cases hemp : s.readPos = s.writePos
      · rw [if_pos hemp] at h
        by_cases hcl : closed s = true
        · rw [if_pos hcl] at h
          cases h
          omega
        · rw [if_neg hcl] at h
          exact absurd h (by simp)
      · rw [if_neg hemp] at h
        rcases heq : readBytes s t (off + k) with ⟨s1, t1, n⟩
        rw [heq] at h
        dsimp only at h
        have hlen := readBytes_target_length s t (off + k)
        rw [heq] at hlen
        dsimp only at hlen
        have hn := readBytes_count_le_space s t (off + k)
        rw [heq] at hn
        dsimp only at hn
        exact ih (by omega) (by omega) h
    · rw [if_neg hlt] at h
      cases h
      omega

/-- C3 (amended): the count returned by `readSync` is bounded by `limit`
whenever the remaining target space `target.length - offset` is at most
`limit` (as at every in-repo call site); a single copy step is capped by the
remaining target space, not by `limit`, so with a larger target the final
step may overshoot `limit`. -/
theorem readSync_le_limit {s : SStream} {t : List Nat}
    {o l f : Nat} {s' : SStream} {t' : List Nat} {n : Int}
    (hsp : t.length ≤ o + l)
    (h : readSync s t o l f = some (s', t', n)) :
    n ≤ (l : Int) := by
  unfold readSync at h
  by_cases he : endOfStream s = true
  · rw [if_pos he] at h
    cases h
    omega
  · rw [if_neg he] at h
    rcases hl : readSyncLoop s t o l 0 f with _ | r
    · rw [hl] at h
      exact absurd h (by simp)
    · rcases r with ⟨s1, t1, total⟩
      rw [hl] at h
      dsimp only [Option.map] at h
      cases h
      have htot : total ≤ l := readSyncLoop_le hsp (Nat.zero_le _) hl
      exact_mod_cast htot

/-- C3 witness: a call where the bound is met with equality. -/
theorem readSync_le_limit_witness : ((1 : Int) ≤ (1 : Nat)) :=
  readSync_le_limit (s := ⟨0, 1, 0, [9, 0]⟩) (t := [0]) (o := 0)
    (l := 1) (f := 3)
    (by decide)
    (show readSync ⟨0, 1, 0, [9, 0]⟩ [0] 0 1 3 =
      some (⟨1, 1, 0, [9, 0]⟩, [9], 1) by decide)

/-- C3 counterexample: with a 4-byte target, `limit = 1` and two buffered
bytes, `readSync` returns 2 > 1 — the claim's unconditional `count ≤ limit`
fails. -/
theorem readSync_exceeds_limit :
    readSync ⟨0, 2, 0, [5, 6, 0, 0]⟩ (List.replicate 4 0) 0 1 3 =
      some (⟨2, 2, 0, [5, 6, 0, 0]⟩, [5, 6, 0, 0], 2) ∧
    ¬ ((2 : Int) ≤ (1 : Nat)) := by
  constructor
  · decide
  · decide

/-- C5 (amended): on a closed stream (`state = 1`) holding `K` unread bytes,
a `readSync`/`read` with `limit > K` and target space at least `K` delivers
exactly the `K` buffered bytes, returns `K`, and latches end-of-stream
(`state` becomes 3); afterwards every `readSync`/`read` returns `-1`.  With
`limit = K` the call returns `K` without latching (see the counterexample),
so the strict bound is required. -/
theorem close_then_drain {s : SStream} {t : List Nat} {o l : Nat}
    (hv : Valid s) (hst : s.state = 1)
    (hlim : (contents s).length < l)
    (hsp : o + (contents s).length ≤ t.length) :
    readSync s t o l ((contents s).length + 1) =
      some ({ s with readPos := s.writePos, state := 3 },
        byteSet t o (contents s), ((contents s).length : Int)) ∧
    read s t o l ((contents s).length + 1) =
      some ({ s with readPos := s.writePos, state := 3 },
        byteSet t o (contents s), ((contents s).length : Int)) ∧
    (∀ (t2 : List Nat) (o2 l2 f2 : Nat),
      readSync { s with readPos := s.writePos, state := 3 } t2 o2 l2 f2 =
        some ({ s with readPos := s.writePos, state := 3 }, t2, -1)) ∧
    (∀ (t2 : List Nat) (o2 l2 f2 : Nat),
      read { s with readPos := s.writePos, state := 3 } t2 o2 l2 f2 =
        some ({ s with readPos := s.writePos, state := 3 }, t2, -1)) := by
  have he : ¬ endOfStream s = true := by
    simp [endOfStream]
    omega
  have hdrain := readSyncLoop_drain (t := t) (o := o) (l := l)
    (k := 0) (f := (contents s).length + 1) hv (by omega)
    (by omega) (by omega) (by omega)
  simp only [Nat.add_zero, Nat.zero_add, hst, show (1 : Nat) ||| 2 = 3 from rfl] at hdrain
  have hmain : readSync s t o l ((contents s).length + 1) =
      some ({ s with readPos := s.writePos, state := 3 },
        byteSet t o (contents s), ((contents s).length : Int)) := by
    unfold readSync
    rw [if_neg he, hdrain]
    rfl
  refine ⟨hmain, ?_, fun t2 o2 l2 f2 => ?_, fun t2 o2 l2 f2 => ?_⟩
  · unfold read
    rw [if_neg he, readLoop_eq_readSyncLoop, hdrain]
    rfl
  · unfold readSync
    rw [if_pos (show endOfStream { s with readPos := s.writePos, state := 3 } = true
      from rfl)]
  · unfold read
    rw [if_pos (show endOfStream { s with readPos := s.writePos, state := 3 } = true
      from rfl)]

/-- C5 witness: draining 2 closed-buffered bytes with limit 3. -/
theorem close_then_drain_witness :
    readSync ⟨0, 2, 1, [10, 20, 0, 0]⟩ (List.replicate 3 0) 0 3 3 =
      some (⟨2, 2, 3, [10, 20, 0, 0]⟩, [10, 20, 0], 2) :=
  (close_then_drain (s := ⟨0, 2, 1, [10, 20, 0, 0]⟩)
    (t := List.replicate 3 0) (o := 0) (l := 3)
    (by decide) rfl (by decide) (by decide)).1

/-- C5 counterexample: with `limit = K` (here both 2) the drain returns `K`
but does not latch end-of-stream — the state stays 1 — and the next read
returns 0, not `-1`, refuting the claim as stated for `limit ≥ K`. -/
theorem close_then_drain_limit_eq_no_latch :
    readSync ⟨0, 2, 1, [10, 20, 0, 0]⟩ (List.replicate 2 0) 0 2 5 =
      some (⟨2, 2, 1, [10, 20, 0, 0]⟩, [10, 20], 2) ∧
    ¬ (1 < (1 : Nat)) ∧
    readSync ⟨2, 2, 1, [10, 20, 0, 0]⟩ (List.replicate 1 0) 0 1 5 =
      some (⟨2, 2, 3, [10, 20, 0, 0]⟩, [0], 0) ∧
    ((0 : Int) ≠ -1) := by
  refine ⟨by decide, by decide, by decide, by decide⟩

/-- Any sequence of producer calls whose total payload fits in the free space
appends exactly that payload to the buffered contents. -/
theorem runWrites_run : ∀ (wcalls : List (Bool × List Nat)) {s : SStream} {f : Nat},
    Valid s →
    (contents s).length + ((wcalls.map Prod.snd).flatten).length ≤ s.data.length - 1 →
    ((wcalls.map Prod.snd).flatten).length < f →
    ∃ s', runWrites s wcalls f = some s' ∧ Valid s' ∧ s'.state = s.state ∧
      s'.data.length = s.data.length ∧
      contents s' = contents s ++ (wcalls.map Prod.snd).flatten := by
  intro wcalls
  induction wcalls with
  | nil =>
    intro s f hv _ _
    exact ⟨s, rfl, hv, rfl, rfl, by simp⟩
  | cons c rest ih =>
    intro s f hv hroom hfuel
    rcases c with ⟨useAsync, chunk⟩
    have hflat : (((⟨useAsync, chunk⟩ : Bool × List Nat) :: rest).map Prod.snd).flatten =
        chunk ++ (rest.map Prod.snd).flatten := by simp
    rw [hflat] at hroom hfuel ⊢
    rw [List.length_append] at hroom hfuel
    have hcall : (if useAsync then write s chunk f else writeSync s chunk f) =
        writeSyncLoop s chunk 0 f := by
      cases useAsync
      · rfl
      · show write s chunk f = writeSyncLoop s chunk 0 f
        unfold write
        exact writeLoop_eq_writeSyncLoop s chunk 0 f
    obtain ⟨s1, heq1, hv1, hst1, hdl1, hcont1⟩ :=
      writeSyncLoop_run (s := s) (c := chunk) (k := 0) (f := f) hv
        (Nat.zero_le _) (by omega) (by omega)
    rw [List.drop_zero] at hcont1
    have hlc1 : (contents s1).length = (contents s).length + chunk.length := by
      rw [hcont1]
      simp
    obtain ⟨s2, heq2, hv2, hst2, hdl2, hcont2⟩ :=
      ih (s := s1) (f := f) hv1 (by rw [hlc1, hdl1]; omega) (by omega)
    refine ⟨s2, ?_, hv2, by rw [hst2, hst1], by rw [hdl2, hdl1], ?_⟩
    · unfold runWrites
      rw [hcall, heq1]
      exact heq2
    · rw [hcont2, hcont1, List.append_assoc]

/-- Any sequence of consumer calls whose limits total at most the buffered
contents delivers exactly the corresponding prefix, chunked per call. -/
theorem runReads_run : ∀ (rdcalls : List (Bool × Nat)) {s : SStream} {f : Nat},
    Valid s → s.state = 0 →
    (rdcalls.map Prod.snd).sum ≤ (contents s).length →
    (rdcalls.map Prod.snd).sum < f →
    ∃ s' outs, runReads s rdcalls f = some (s', outs) ∧
      outs.flatten = (contents s).take ((rdcalls.map Prod.snd).sum) ∧
      contents s' = (contents s).drop ((rdcalls.map Prod.snd).sum) := by
  intro rdcalls
  induction rdcalls with
  | nil =>
    intro s f hv hst _ _
    exact ⟨s, [], rfl, by simp, by simp⟩
  | cons c rest ih =>
    intro s f hv hst hsum hfuel
    rcases c with ⟨useAsync, limit⟩
    have hsums : (((⟨useAsync, limit⟩ : Bool × Nat) :: rest).map Prod.snd).sum =
        limit + (rest.map Prod.snd).sum := by simp
    rw [hsums] at hsum hfuel ⊢
    have he : ¬ endOfStream s = true := by
      simp [endOfStream]
      omega
    obtain ⟨s1, heq1, hv1, hwp1, hst1, hdata1, hcont1⟩ :=
      readSyncLoop_exact (s := s) (t := List.replicate limit 0) (o := 0)
        (l := limit) (k := 0) (f := f) hv (Nat.zero_le _)
        (by omega) (by simp) (by omega)
    have htklen : ((contents s).take limit).length = limit := by simp; omega
    have hbs : byteSet (List.replicate limit 0) 0 ((contents s).take limit) =
        (contents s).take limit := by
      unfold byteSet
      rw [htklen]
      simp
    simp only [Nat.add_zero, Nat.zero_add, Nat.sub_zero, hbs] at heq1 hcont1
    have hcall : (if useAsync then read s (List.replicate limit 0) 0 limit f
        else readSync s (List.replicate limit 0) 0 limit f) =
        readSync s (List.replicate limit 0) 0 limit f := by
      cases useAsync
      · rfl
      · show read s (List.replicate limit 0) 0 limit f = _
        unfold read readSync
        rw [readLoop_eq_readSyncLoop]
    have hcall2 : readSync s (List.replicate limit 0) 0 limit f =
        some (s1, (contents s).take limit, (limit : Int)) := by
      unfold readSync
      rw [if_neg he, heq1]
      rfl
    obtain ⟨s2, outs, heq2, hflat2, hcont2⟩ :=
      ih (s := s1) (f := f) hv1 (by rw [hst1]; exact hst)
        (by rw [hcont1, List.length_drop]; omega) (by omega)
    refine ⟨s2, (contents s).take limit :: outs, ?_, ?_, ?_⟩
    · unfold runReads
      rw [hcall, hcall2]
      dsimp only
      rw [heq2]
    · rw [List.flatten_cons, hflat2, hcont1, List.take_add]
    · rw [hcont2, hcont1, List.drop_drop]

/-- C1: FIFO round-trip — starting from an empty open channel, any sequence
of `write`/`writeSync` calls totaling `N ≤ capacity - 1` bytes followed by
any sequence of `read`/`readSync` calls whose limits total `N` succeeds
without suspending, and the concatenation of the delivered targets equals the
concatenation of the written chunks, in order, regardless of chunking. -/
theorem fifo_round_trip {s0 : SStream} {wcalls : List (Bool × List Nat)}
    {rdcalls : List (Bool × Nat)} {fuel : Nat}
    (hv : Valid s0) (hemp : s0.readPos = s0.writePos) (hst : s0.state = 0)
    (hN : (rdcalls.map Prod.snd).sum = ((wcalls.map Prod.snd).flatten).length)
    (hcap : ((wcalls.map Prod.snd).flatten).length ≤ s0.data.length - 1)
    (hfuel : ((wcalls.map Prod.snd).flatten).length < fuel) :
    ∃ s1 s2 outs,
      runWrites s0 wcalls fuel = some s1 ∧
      runReads s1 rdcalls fuel = some (s2, outs) ∧
      outs.flatten = (wcalls.map Prod.snd).flatten ∧
      contents s2 = [] := by
  have hc0 : contents s0 = [] := (contents_eq_nil_iff hv).mpr hemp
  obtain ⟨s1, heqw, hv1, hst1, hdl1, hcont1⟩ :=
    runWrites_run wcalls (s := s0) (f := fuel) hv
      (by rw [hc0, List.length_nil]; omega) hfuel
  rw [hc0, List.nil_append] at hcont1
  obtain ⟨s2, outs, heqr, hflat, hcont2⟩ :=
    runReads_run rdcalls (s := s1) (f := fuel) hv1 (by rw [hst1]; exact hst)
      (by rw [hcont1]; omega) (by omega)
  refine ⟨s1, s2, outs, heqw, heqr, ?_, ?_⟩
  · rw [hflat, hcont1, hN, List.take_length]
  · rw [hcont2, hcont1, hN, List.drop_length]

/-- C1 witness: two writes (one blocking, one async) of `[1,2]` and `[3]`
into a capacity-4 channel, then reads of limits 1 and 2. -/
theorem fifo_round_trip_witness :
    ∃ s1 s2 outs,
      runWrites ⟨0, 0, 0, [0, 0, 0, 0]⟩ [(false, [1, 2]), (true, [3])] 4 = some s1 ∧
      runReads s1 [(true, 1), (false, 2)] 4 = some (s2, outs) ∧
      outs.flatten = (([(false, [1, 2]), (true, [3])].map Prod.snd).flatten) ∧
      contents s2 = [] :=
  fifo_round_trip (by decide) rfl rfl (by decide) (by decide) (by decide)

/-- C2 witness: a one-byte write into a fresh capacity-4 channel. -/
theorem writeBytes_no_overwrite_witness :
    (writeBytes ⟨0, 0, 0, [0, 0, 0, 0]⟩ [5]).1.writePos ≠
      (⟨0, 0, 0, [0, 0, 0, 0]⟩ : SStream).readPos ∧
    (contents (writeBytes ⟨0, 0, 0, [0, 0, 0, 0]⟩ [5]).1).length ≤
      (⟨0, 0, 0, [0, 0, 0, 0]⟩ : SStream).data.length - 1 :=
  writeBytes_no_overwrite (by decide) (by decide)

/-- C6 witness: a write attempt against a full capacity-4 channel copies 0
bytes, and one against a fresh channel copies at least 1. -/
theorem writeBytes_zero_iff_full_witness :
    ((writeBytes ⟨0, 3, 0, [0, 0, 0, 0]⟩ [5]).2.1 = 0 ↔
      ((⟨0, 3, 0, [0, 0, 0, 0]⟩ : SStream).writePos + 1) %
        (⟨0, 3, 0, [0, 0, 0, 0]⟩ : SStream).data.length =
        (⟨0, 3, 0, [0, 0, 0, 0]⟩ : SStream).readPos) ∧
    (¬ ((⟨0, 3, 0, [0, 0, 0, 0]⟩ : SStream).writePos + 1) %
        (⟨0, 3, 0, [0, 0, 0, 0]⟩ : SStream).data.length =
        (⟨0, 3, 0, [0, 0, 0, 0]⟩ : SStream).readPos →
      1 ≤ (writeBytes ⟨0, 3, 0, [0, 0, 0, 0]⟩ [5]).2.1) :=
  writeBytes_zero_iff_full (by decide) (by decide)

/-- C7 witness: writing two bytes into a fresh capacity-4 channel returns 2. -/
theorem write_returns_full_length_witness : (2 : Nat) = ([7, 8] : List Nat).length :=
  write_returns_full_length (s := ⟨0, 0, 0, [0, 0, 0, 0]⟩)
    (Or.inr (show writeSync ⟨0, 0, 0, [0, 0, 0, 0]⟩ [7, 8] 3 =
      some (⟨0, 2, 0, [7, 8, 0, 0]⟩, 2) by decide))

/-- C4 witness: with the end-of-stream bit set (`state = 2`), both variants
return `-1` and touch nothing. -/
theorem eos_terminal_witness :
    readSync ⟨0, 0, 2, [0, 0]⟩ [0] 0 1 1 = some (⟨0, 0, 2, [0, 0]⟩, [0], -1) ∧
    read ⟨0, 0, 2, [0, 0]⟩ [0] 0 1 1 = some (⟨0, 0, 2, [0, 0]⟩, [0], -1) :=
  eos_terminal (by decide)

end FFStream
